import Mathlib

/-!
Verification development for the Joplin-to-Hexo export script
(`joplin_to_hexo.py`).  The script is shallowly embedded: Python strings
become `List Char`, the Joplin HTTP client becomes a record of pure
functions returning `Option` (a `none` models a raised exception), the
filesystem becomes association lists, and the wall clock becomes an
explicit `now : DateTime` parameter.  Loops that may diverge in Python
(the notebook-parent walk, string scanning) take an explicit fuel
argument; at top level the fuel is the input length where that is the
exact bound, and `none` marks fuel exhaustion (non-termination).
-/

set_option maxRecDepth 100000

namespace JoplinHexo

/-- Association-list lookup, first match wins (models the read side of a
Python dict when keys are unique, and is combined with reversal where the
dict's last-write-wins insertion order matters). -/
def alookup {α β : Type} [DecidableEq α] (k : α) : List (α × β) → Option β
  | [] => none
  | (a, b) :: t => if a = k then some b else alookup k t

/-- Insert-or-overwrite for an association list: models writing a file,
overwriting any existing file of the same name. -/
def upsert {α β : Type} [DecidableEq α] (k : α) (v : β) : List (α × β) → List (α × β)
  | [] => [(k, v)]
  | (a, b) :: t => if a = k then (a, v) :: t else (a, b) :: upsert k v t

/-- Python truthiness of an optional string: `None` and the empty string
are falsy. -/
def truthyOptStr : Option String → Bool
  | none => false
  | some s => !(s = "")

/-- Python `a or b` for an optional string `a` with a string default `b`. -/
def pyOrStr (a : Option String) (b : String) : String :=
  match a with
  | none => b
  | some s => if s = "" then b else s

/-- Whitespace characters removed by Python `str.strip()` with no
argument: space, tab, newline, carriage return, vertical tab, form feed. -/
def isPySpace (c : Char) : Bool :=
  c = ' ' || c = '\t' || c = '\n' || c = '\x0d' || c = '\x0b' || c = '\x0c'

/-- Python `str.strip()`: drop leading and trailing whitespace. -/
def pyStrip (l : List Char) : List Char :=
  ((l.dropWhile isPySpace).reverse.dropWhile isPySpace).reverse

/-- Index of the last occurrence of a character (Python `str.rfind`,
`none` for "not found"). -/
def rfindIdx (c : Char) : List Char → Option Nat
  | [] => none
  | x :: t =>
    match rfindIdx c t with
    | some i => some (i + 1)
    | none => if x = c then some 0 else none

/-- Extension part of CPython `posixpath.splitext`: the suffix from the
last dot, provided that dot comes after the last path separator and some
non-dot character of the basename precedes it; otherwise empty. -/
def splitextExt (p : List Char) : List Char :=
  match rfindIdx '.' p with
  | none => []
  | some d =>
    let fi : Nat :=
      match rfindIdx '/' p with
      | none => 0
      | some s => s + 1
    if fi ≤ d ∧ ((p.take d).drop fi).any (fun c => c != '.') then p.drop d else []

/-- Character class `[a-f0-9]` of the resource-link regular expression. -/
def isLowerHex (c : Char) : Bool :=
  (('0' ≤ c) && (c ≤ '9')) || (('a' ≤ c) && (c ≤ 'f'))

/-- Fuel-bounded body of Python `str.replace`: scan left to right, and at
each position replace a (non-empty) pattern occurrence and jump past it,
or copy one character.  With fuel at least the length of the scanned list
this is exactly `str.replace` for a non-empty pattern. -/
def replaceFuel (pat new : List Char) : Nat → List Char → List Char
  | 0, s => s
  | fuel + 1, s =>
    if pat ≠ [] ∧ pat <+: s then
      new ++ replaceFuel pat new fuel (s.drop pat.length)
    else
      match s with
      | [] => []
      | c :: t => c :: replaceFuel pat new fuel t

/-- Python `str.replace(pat, new)` for a non-empty pattern
(every call site of the script uses a non-empty pattern). -/
def pyReplace (s pat new : List Char) : List Char :=
  replaceFuel pat new s.length s

/-- Tail of the resource-link regular expression after the closing
bracket: `\(:\/([a-f0-9]{32})\)`.  Returns the captured 32-hex-character
group and the remainder of the input after the match. -/
def matchTail : List Char → Option (List Char × List Char)
  | '(' :: ':' :: '/' :: t =>
    if (t.take 32).length == 32 && (t.take 32).all isLowerHex then
      match t.drop 32 with
      | ')' :: rest => some (t.take 32, rest)
      | _ => none
    else none
  | _ => none

/-- Lazy `.*?\]` part of the regular expression: at each position first
try to close the bracket and match the link tail, otherwise let `.`
(which does not match a newline) consume one character. -/
def matchInner : List Char → Option (List Char × List Char)
  | [] => none
  | c :: t =>
    match (if c = ']' then matchTail t else none) with
    | some r => some r
    | none => if c = '\n' then none else matchInner t

/-- Match of the full regular expression `!\[.*?\]\(:\/([a-f0-9]{32})\)`
anchored at the head of the input. -/
def matchImageAt : List Char → Option (List Char × List Char)
  | '!' :: '[' :: t => matchInner t
  | _ => none

/-- Fuel-bounded `re.findall` scan: try a match at every position, emit
the captured group and continue after the match, otherwise advance one
character.  Every step strictly shortens the input, so fuel equal to the
input length (as used by `findall`) is exact. -/
def findallFuel : Nat → List Char → List (List Char)
  | 0, _ => []
  | _ + 1, [] => []
  | fuel + 1, c :: t =>
    match matchImageAt (c :: t) with
    | some (idl, rest) => idl :: findallFuel fuel rest
    | none => findallFuel fuel t

/-- The `re.findall(r'!\[.*?\]\(:\/([a-f0-9]{32})\)', body)` call of
`process_note`: the list of captured resource ids, in order, with
repeats. -/
def findall (s : List Char) : List (List Char) :=
  findallFuel s.length s

/-- Lowercase hexadecimal digit character for a value below 16. -/
def hexDigit (n : Nat) : Char :=
  if n < 10 then Char.ofNat (48 + n) else Char.ofNat (87 + n)

/-- Escaping of one character by `json.dumps(..., ensure_ascii=False)`:
quote, backslash, the named control escapes, `\u00XX` for the remaining
control characters, and everything else (Unicode included) verbatim. -/
def jsonEscapeChar (c : Char) : List Char :=
  if c = '"' then ['\\', '"']
  else if c = '\\' then ['\\', '\\']
  else if c = '\n' then ['\\', 'n']
  else if c = '\t' then ['\\', 't']
  else if c = '\x0d' then ['\\', 'r']
  else if c = '\x08' then ['\\', 'b']
  else if c = '\x0c' then ['\\', 'f']
  else if c.toNat < 32 then ['\\', 'u', '0', '0', hexDigit (c.toNat / 16), hexDigit (c.toNat % 16)]
  else [c]

/-- JSON string literal for a Python string under `ensure_ascii=False`. -/
def jsonStr (s : String) : List Char :=
  '"' :: (s.data.map jsonEscapeChar).flatten ++ ['"']

/-- The front-matter mapping built by `process_note`: insertion order is
`title`, `date`, `updated`, then optionally `categories`. -/
structure FrontMatter where
  title : String
  date : String
  updated : String
  categories : Option (List String)
deriving DecidableEq

/-- JSON array of category strings as `json.dumps(..., indent=2)` renders
it nested one level deep: items indented four spaces, closing bracket
indented two. -/
def jsonCatsBlock (cats : List String) : List Char :=
  "[\n".data ++ List.intercalate ",\n".data (cats.map (fun c => "    ".data ++ jsonStr c)) ++ "\n  ]".data

/-- The inner field lines of `json.dumps(front_matter_dict, indent=2,
ensure_ascii=False)`: everything strictly between the opening and the
closing brace line (without the newline that follows the opening brace or
the one that precedes the closing brace). -/
def fieldsBlock (fm : FrontMatter) : List Char :=
  "  \"title\": ".data ++ jsonStr fm.title ++
  ",\n  \"date\": ".data ++ jsonStr fm.date ++
  ",\n  \"updated\": ".data ++ jsonStr fm.updated ++
  (match fm.categories with
   | none => []
   | some cats => ",\n  \"categories\": ".data ++ jsonCatsBlock cats)

/-- Serialization `json.dumps(front_matter_dict, indent=2, ensure_ascii=False)`. -/
def dumpsFrontMatter (fm : FrontMatter) : List Char :=
  Char.ofNat 123 :: '\n' :: fieldsBlock fm ++ ['\n', Char.ofNat 125]

/-- The script's `remove_outer_braces`: strip whitespace, then remove one
pair of surrounding curly braces when both are present. -/
def remove_outer_braces (text : List Char) : List Char :=
  let t := pyStrip text
  if t.head? = some (Char.ofNat 123) ∧ t.getLast? = some (Char.ofNat 125) then
    (t.drop 1).dropLast
  else t

/-- Wall-clock timestamp at one-second resolution (what
`strftime('%Y-%m-%d %H:%M:%S')` observes of a `datetime`). -/
structure DateTime where
  year : Nat
  month : Nat
  day : Nat
  hour : Nat
  minute : Nat
  second : Nat
deriving DecidableEq

/-- Zero-pad a number to two digits (strftime `%m`, `%d`, `%H`, `%M`, `%S`). -/
def pad2 (n : Nat) : String :=
  if n < 10 then "0" ++ Nat.repr n else Nat.repr n

/-- Zero-pad a number to four digits (strftime `%Y`). -/
def pad4 (n : Nat) : String :=
  if n < 10 then "000" ++ Nat.repr n
  else if n < 100 then "00" ++ Nat.repr n
  else if n < 1000 then "0" ++ Nat.repr n
  else Nat.repr n

/-- Formatting `dt.strftime` with format `%Y-%m-%d %H:%M:%S`. -/
def fmtDT (dt : DateTime) : String :=
  pad4 dt.year ++ "-" ++ pad2 dt.month ++ "-" ++ pad2 dt.day ++ " " ++
  pad2 dt.hour ++ ":" ++ pad2 dt.minute ++ ":" ++ pad2 dt.second

/-- One notebook record as fetched with fields `id,title,parent_id`. -/
structure NotebookData where
  id : String
  title : String
  parent_id : Option String
deriving DecidableEq

/-- One note record as fetched with fields
`id,title,body,parent_id,user_created_time,updated_time` (the script also
consults `created_time`, which that projection leaves absent). -/
structure NoteData where
  id : String
  title : Option String
  body : Option String
  parent_id : Option String
  user_created_time : Option DateTime
  created_time : Option DateTime
  updated_time : Option DateTime
deriving DecidableEq

/-- Resource metadata as fetched with fields `id,title,filename,mime`
(only `filename` and `title` are consumed). -/
structure ResourceMeta where
  filename : Option String
  title : Option String
deriving DecidableEq

/-- One tag record as fetched with fields `id,title`. -/
structure TagData where
  id : String
  title : String
deriving DecidableEq

/-- The per-resource capability of the Joplin client: metadata fetch and
binary-content fetch by id.  `none` models a raised exception, which
`process_note` catches per resource. -/
structure ApiModel where
  get_resource : List Char → Option ResourceMeta
  get_resource_file : List Char → Option String

/-- Extension derivation of `process_note`: take
`resource_meta.filename or resource_meta.title or ""`, split off its
extension, and fall back to the literal `.png` when that yields none. -/
def extFor (meta : ResourceMeta) : List Char :=
  let original := pyOrStr meta.filename (pyOrStr meta.title "")
  let e := splitextExt original.data
  if e = [] then ".png".data else e

/-- The local filename `new_resource_filename`: the resource id followed by the extension. -/
def resFilenameOf (rid : List Char) (meta : ResourceMeta) : List Char :=
  rid ++ extFor meta

/-- The replaced text `old_link`: the id wrapped as an internal link. -/
def patOf (rid : List Char) : List Char :=
  '(' :: ':' :: '/' :: (rid ++ [')'])

/-- The replacement text `new_link`: the local resources path wrapped in parentheses. -/
def newLinkOf (rid : List Char) (meta : ResourceMeta) : List Char :=
  '(' :: ("/resources/".data ++ resFilenameOf rid meta ++ [')'])

/-- State threaded through the per-note resource loop: the body being
rewritten, the resources directory (filename to contents), and the
filenames downloaded so far, in order. -/
structure LoopState where
  body : List Char
  fs : List (List Char × String)
  downloads : List (List Char)
deriving DecidableEq

/-- One iteration of the resource loop of `process_note`: fetch metadata,
derive the local filename, download the content only when no file of that
name exists, then replace every occurrence of the internal link.  A
failed fetch (metadata or content) is caught and leaves the state of that
step unchanged, the link unrewritten. -/
def processResourceStep (api : ApiModel) (st : LoopState) (rid : List Char) : LoopState :=
  match api.get_resource rid with
  | none => st
  | some meta =>
    let fname := resFilenameOf rid meta
    if (alookup fname st.fs).isSome then
      { st with body := pyReplace st.body (patOf rid) (newLinkOf rid meta) }
    else
      match api.get_resource_file rid with
      | none => st
      | some content =>
        { body := pyReplace st.body (patOf rid) (newLinkOf rid meta)
          fs := st.fs ++ [(fname, content)]
          downloads := st.downloads ++ [fname] }

/-- The full resource loop, iterating `processResourceStep` over the ids
captured by the regular-expression scan. -/
def rewriteLoop (api : ApiModel) : List (List Char) → LoopState → LoopState
  | [], st => st
  | rid :: rest, st => rewriteLoop api rest (processResourceStep api st rid)

/-- The script's `get_category_hierarchy`, fuel-bounded: walk parent
links while the current id is truthy and present in the map, prepending
each visited notebook's title.  `none` means the fuel ran out, which
models the non-termination of the unguarded Python loop on a parent
cycle. -/
def get_category_hierarchy : Nat → Option String → List (String × NotebookData) → Option (List String)
  | 0, _, _ => none
  | fuel + 1, cur, map =>
    match cur with
    | none => some []
    | some cid =>
      if cid = "" then some []
      else
        match alookup cid map with
        | none => some []
        | some nb =>
          match get_category_hierarchy fuel nb.parent_id map with
          | none => none
          | some rest => some (rest ++ [nb.title])

/-- The dict comprehension building `notebooks_map` over notebooks with truthy ids:
falsy ids are skipped and a later duplicate id overwrites an earlier one,
hence the reversal in front of the first-match lookup. -/
def buildNotebooksMap (nbs : List NotebookData) : List (String × NotebookData) :=
  ((nbs.filter (fun nb => !(nb.id = ""))).map (fun nb => (nb.id, nb))).reverse

/-- The categories decision of `process_note`: only a truthy `parent_id`
triggers the hierarchy walk, and only a non-empty resulting path yields a
`categories` entry.  The outer `none` propagates fuel exhaustion of the
walk. -/
def categoriesFor (note : NoteData) (map : List (String × NotebookData)) (fuel : Nat) :
    Option (Option (List String)) :=
  if truthyOptStr note.parent_id then
    match get_category_hierarchy fuel note.parent_id map with
    | none => none
    | some cats => some (if cats = [] then none else some cats)
  else some none

/-- The `date` front-matter string: `user_created_time` if present, else
`created_time`, else the current wall-clock time. -/
def dateStr (note : NoteData) (now : DateTime) : String :=
  match note.user_created_time with
  | some t => fmtDT t
  | none =>
    match note.created_time with
    | some t => fmtDT t
    | none => fmtDT now

/-- The `updated` front-matter string: `updated_time` if present, else
equal to `date`. -/
def updatedStr (note : NoteData) (now : DateTime) : String :=
  match note.updated_time with
  | some t => fmtDT t
  | none => dateStr note now

/-- The front-matter record assembled by `process_note`. -/
def noteFM (note : NoteData) (now : DateTime) (cats : Option (List String)) : FrontMatter :=
  { title := note.title.getD ""
    date := dateStr note now
    updated := updatedStr note now
    categories := cats }

/-- Observable effects of one `process_note` call: the markdown file
written (name and contents), the resources directory afterwards, the
downloads performed, and whether the note was skipped. -/
structure ProcessResult where
  written : Option (String × List Char)
  fs : List (List Char × String)
  downloads : List (List Char)
  skipped : Bool
deriving DecidableEq

/-- The script's `process_note` as a pure function of the note, the
notebook map, the resource capability, the resources directory and the
clock.  Returns `none` when the notebook-hierarchy walk exhausts its fuel
(the Python loop would not terminate). -/
def processNote (api : ApiModel) (note : NoteData) (map : List (String × NotebookData))
    (fuel : Nat) (now : DateTime) (fs0 : List (List Char × String)) : Option ProcessResult :=
  if !(truthyOptStr note.title) || !(truthyOptStr note.body) then
    some { written := none, fs := fs0, downloads := [], skipped := true }
  else
    let body := (note.body.getD "").data
    let st := rewriteLoop api (findall body) { body := body, fs := fs0, downloads := [] }
    match categoriesFor note map fuel with
    | none => none
    | some cats =>
      let fm := noteFM note now cats
      let content := ";;;".data ++ remove_outer_braces (dumpsFrontMatter fm) ++ "\n;;;\n\n".data ++ st.body
      some { written := some (note.id ++ ".md", content)
             fs := st.fs
             downloads := st.downloads
             skipped := false }

/-- Contents of the two output directories: `source/_posts` keyed by
markdown filename and `source/resources` keyed by resource filename. -/
structure FsState where
  posts : List (String × List Char)
  resources : List (List Char × String)
deriving DecidableEq

/-- How a run of `main` ended (after a successful token and ping step):
the requested tag was absent, no notes matched, or the export finished. -/
inductive Outcome : Type
  | tagNotFound : Outcome
  | noNotes : Outcome
  | finished : Outcome
deriving DecidableEq

/-- Observable result of one run of `main`: the final directory state,
the outcome, whether notes were fetched, and every download performed. -/
structure RunResult where
  state : FsState
  outcome : Outcome
  notesFetched : Bool
  downloads : List (List Char)
deriving DecidableEq

/-- The listing side of the Joplin client consumed by `main`: tags, notes
(filtered by tag id or not), notebooks, and the per-resource capability. -/
structure JoplinModel where
  tags : List TagData
  notesByTag : String → List NoteData
  allNotes : List NoteData
  notebooks : List NotebookData
  api : ApiModel

/-- The per-note processing loop of `main`, threading the posts
directory, the resources directory and the download log. -/
def runNotes (api : ApiModel) (map : List (String × NotebookData)) (fuel : Nat) (now : DateTime) :
    List NoteData → FsState → List (List Char) → Option (FsState × List (List Char))
  | [], st, dls => some (st, dls)
  | note :: rest, st, dls =>
    match processNote api note map fuel now st.resources with
    | none => none
    | some r =>
      let posts :=
        match r.written with
        | some (p, c) => upsert p c st.posts
        | none => st.posts
      runNotes api map fuel now rest { posts := posts, resources := r.fs } (dls ++ r.downloads)

/-- The tail of `main` once notes have been selected: fetch notebooks,
clean both output directories (they restart empty regardless of the prior
state), then process every note. -/
def runAll (m : JoplinModel) (notes : List NoteData) (fuel : Nat) (now : DateTime) :
    Option RunResult :=
  let map := buildNotebooksMap m.notebooks
  match runNotes m.api map fuel now notes { posts := [], resources := [] } [] with
  | none => none
  | some (st, dls) =>
    some { state := st, outcome := Outcome.finished, notesFetched := true, downloads := dls }

/-- The branch of `main` after note fetching: an empty note list aborts
before the directories are cleaned. -/
def mainWithNotes (m : JoplinModel) (notes : List NoteData) (s0 : FsState) (fuel : Nat)
    (now : DateTime) : Option RunResult :=
  if notes.isEmpty then
    some { state := s0, outcome := Outcome.noNotes, notesFetched := true, downloads := [] }
  else runAll m notes fuel now

/-- The whole of `main` after token acquisition and ping, with the CLI
tag argument already resolved (`none` is the case-insensitive `ALL`
sentinel).  A missing tag aborts before any notes are fetched and before
the output directories are touched. -/
def main_run (targetTag : Option String) (m : JoplinModel) (s0 : FsState) (fuel : Nat)
    (now : DateTime) : Option RunResult :=
  match targetTag with
  | some t =>
    match m.tags.find? (fun tg => tg.title == t) with
    | none => some { state := s0, outcome := Outcome.tagNotFound, notesFetched := false, downloads := [] }
    | some tg => mainWithNotes m (m.notesByTag tg.id) s0 fuel now
  | none => mainWithNotes m m.allNotes s0 fuel now

/-- Modelled from the spec (claim C4 reading): an extension derived from
the metadata `filename` field alone, `.png` when that yields none.  This
is the rule the claim states; the script additionally falls back to the
metadata `title` before `.png`. -/
def specExtOfFilenameField (meta : ResourceMeta) : List Char :=
  let e := splitextExt (meta.filename.getD "").data
  if e = [] then ".png".data else e

/-- A leaf-first notebook chain: each notebook is stored in the map under
its own id, each links to the next as its parent, and the last one (the
root) has a falsy parent id.  Ids along the chain are truthy. -/
def chainOk (map : List (String × NotebookData)) : List NotebookData → Prop
  | [] => True
  | [n] => n.id ≠ "" ∧ alookup n.id map = some n ∧ truthyOptStr n.parent_id = false
  | n :: m :: rest =>
      n.id ≠ "" ∧ alookup n.id map = some n ∧ n.parent_id = some m.id ∧
      chainOk map (m :: rest)

/-- Rank of the current id of the hierarchy walk under a measure on
notebook ids; a falsy id (already treated as the root) has rank zero. -/
def rankOpt (rank : String → Nat) : Option String → Nat
  | none => 0
  | some s => if s = "" then 0 else rank s

/-- One step of the `while current_id and current_id in notebooks_map`
walk: the id the loop looks at next, with `none` once the loop has
exited (the current id was falsy or absent from the map; `none` is
absorbing). -/
def walkStep (map : List (String × NotebookData)) : Option String → Option String
  | none => none
  | some cid =>
    if cid = "" then none
    else
      match alookup cid map with
      | none => none
      | some nb => nb.parent_id

/-- The id the walk looks at after `n` iterations from a start id.  The
ids of the form `walkIter map start n` are exactly the part of the
notebook parent graph reachable from the start. -/
def walkIter (map : List (String × NotebookData)) (start : Option String) : Nat → Option String
  | 0 => start
  | n + 1 => walkStep map (walkIter map start n)

/-! Concrete fixtures used by witnesses and counterexamples. -/

/-- A 32-character lowercase-hex resource id. -/
def ridA : List Char := "0123456789abcdef0123456789abcdef".data

/-- A note body holding one internal image reference to `ridA`. -/
def bodyA : String := "Hello ![x](:/0123456789abcdef0123456789abcdef) end"

/-- Resource metadata whose filename carries a `.jpg` extension. -/
def metaA : ResourceMeta := { filename := some "pic.jpg", title := none }

/-- Resource metadata with a falsy filename and a `.jpg`-named title. -/
def metaTitleOnly : ResourceMeta := { filename := none, title := some "pic.jpg" }

/-- Local filename derived for `ridA` under `metaA`. -/
def fnameA : List Char := ridA ++ ".jpg".data

/-- A fixed wall-clock instant. -/
def nowA : DateTime := ⟨2025, 1, 1, 0, 0, 0⟩

/-- A second, different wall-clock instant. -/
def nowB : DateTime := ⟨2026, 6, 7, 8, 9, 10⟩

/-- A resource capability that serves `ridA` with `metaA` and content. -/
def apiA : ApiModel :=
  { get_resource := fun rid => if rid = ridA then some metaA else none
    get_resource_file := fun rid => if rid = ridA then some "BYTES" else none }

/-- A capability whose metadata has only a title to derive the extension from. -/
def apiTitleOnly : ApiModel :=
  { get_resource := fun rid => if rid = ridA then some metaTitleOnly else none
    get_resource_file := fun rid => if rid = ridA then some "BYTES" else none }

/-- A capability whose metadata fetch succeeds but whose content fetch
always fails (models a network error on the binary download). -/
def apiNoFile : ApiModel :=
  { get_resource := fun rid => if rid = ridA then some metaA else none
    get_resource_file := fun _ => none }

/-- A note with a title, a body referencing `ridA`, no parent notebook
and a creation timestamp. -/
def noteA : NoteData :=
  { id := "n1", title := some "T", body := some bodyA, parent_id := none
    user_created_time := some ⟨2024, 1, 2, 3, 4, 5⟩, created_time := none
    updated_time := some ⟨2024, 2, 2, 3, 4, 5⟩ }

/-- A note with an empty title (Python-falsy), used for the skip rule. -/
def noteNoTitle : NoteData :=
  { id := "n0", title := some "", body := some "b", parent_id := none
    user_created_time := none, created_time := none, updated_time := none }

/-- A note with a plain body and no resources. -/
def notePlain : NoteData :=
  { id := "n2", title := some "T", body := some "hello", parent_id := none
    user_created_time := some ⟨2024, 1, 2, 3, 4, 5⟩, created_time := none
    updated_time := some ⟨2024, 2, 2, 3, 4, 5⟩ }

/-- The front matter `process_note` builds for `notePlain` (no categories). -/
def fmPlain : FrontMatter := noteFM notePlain nowA none

/-- A Joplin instance with a single note (`noteA`), no tags, no notebooks. -/
def modelA : JoplinModel :=
  { tags := [], notesByTag := fun _ => [], allNotes := [noteA], notebooks := [], api := apiA }

/-- A Joplin instance whose only tag is spelled `Blog` (capital B). -/
def modelB : JoplinModel :=
  { tags := [⟨"t1", "Blog"⟩], notesByTag := fun _ => [noteA], allNotes := [noteA]
    notebooks := [], api := apiA }

/-- A directory state left over from an earlier run: both directories
non-empty. -/
def fsDirty : FsState :=
  { posts := [("old.md", "x".data)], resources := [("r".data, "y")] }

/-- The markdown document `process_note` writes for `noteA`. -/
def doc1A : List Char :=
  ";;;".data ++ remove_outer_braces (dumpsFrontMatter (noteFM noteA nowA none)) ++
  "\n;;;\n\n".data ++ pyReplace bodyA.data (patOf ridA) (newLinkOf ridA metaA)

/-- The run result of a full export of `modelA`. -/
def r1A : RunResult :=
  { state := { posts := [("n1.md", doc1A)], resources := [(fnameA, "BYTES")] }
    outcome := Outcome.finished, notesFetched := true, downloads := [fnameA] }

/-- Loop state in which the file for `ridA` is already present. -/
def stPresentA : LoopState :=
  { body := bodyA.data, fs := [(fnameA, "OLD")], downloads := [] }

/-- The document `process_note` writes for `notePlain`. -/
def docPlain : List Char :=
  ";;;".data ++ remove_outer_braces (dumpsFrontMatter fmPlain) ++ "\n;;;\n\n".data ++ "hello".data

/-- The processing result for `notePlain`. -/
def rPlain : ProcessResult :=
  { written := some ("n2.md", docPlain), fs := [], downloads := [], skipped := false }

/-- Two notebooks: `Child` nested under `Root`. -/
def nbRoot : NotebookData := ⟨"nbA", "Root", none⟩

/-- The child notebook of `nbRoot`. -/
def nbChild : NotebookData := ⟨"nbB", "Child", some "nbA"⟩

/-- Notebook map holding `nbRoot` and `nbChild`. -/
def cmapA : List (String × NotebookData) := buildNotebooksMap [nbRoot, nbChild]

/-- A one-entry notebook map whose notebook is its own parent. -/
def cycMapA : List (String × NotebookData) := [("a", ⟨"a", "T", some "a"⟩)]

/-- A one-entry acyclic notebook map. -/
def rootMapA : List (String × NotebookData) := [("r", ⟨"r", "RootOnly", none⟩)]

/-! Theorems. -/

/-- C8: for every note whose title is empty or absent, or whose body is
empty or absent, processing skips the note: no output file is written,
the resources directory is untouched, nothing is downloaded, and no
error is raised (the call returns normally with the skip notice). -/
theorem skip_rule (api : ApiModel) (note : NoteData) (map : List (String × NotebookData))
    (fuel : Nat) (now : DateTime) (fs0 : List (List Char × String))
    (h : truthyOptStr note.title = false ∨ truthyOptStr note.body = false) :
    processNote api note map fuel now fs0 =
      some { written := none, fs := fs0, downloads := [], skipped := true } := by
  unfold processNote
  rcases h with h | h <;> simp [h]

/-- Witness for C8 at a concrete note with an empty title. -/
theorem skip_rule_witness :
    processNote apiA noteNoTitle [] 1 nowA [] =
      some { written := none, fs := [], downloads := [], skipped := true } :=
  skip_rule apiA noteNoTitle [] 1 nowA [] (Or.inl (by decide))

/-- C9: a present-but-falsy (empty-string) parent notebook id yields no
`categories` entry in the front matter, and the hierarchy walk treats a
falsy current id (either `None` or the empty string) exactly like an id
absent from the notebook map, i.e. as having reached the root; a front
matter without a categories entry serializes without any categories
field. -/
theorem falsy_parent_no_categories :
    (∀ (note : NoteData) (map : List (String × NotebookData)) (fuel : Nat),
        note.parent_id = some "" → categoriesFor note map fuel = some none) ∧
    (∀ (map : List (String × NotebookData)) (fuel : Nat),
        get_category_hierarchy (fuel + 1) (some "") map = some []) ∧
    (∀ (map : List (String × NotebookData)) (fuel : Nat),
        get_category_hierarchy (fuel + 1) none map = some []) ∧
    (∀ fm : FrontMatter, fm.categories = none →
        fieldsBlock fm =
          "  \"title\": ".data ++ jsonStr fm.title ++ ",\n  \"date\": ".data ++ jsonStr fm.date ++
          ",\n  \"updated\": ".data ++ jsonStr fm.updated) := by
  refine ⟨?_, ?_, ?_, ?_⟩
  · intro note map fuel h
    simp [categoriesFor, h, truthyOptStr]
  · intro map fuel
    simp [get_category_hierarchy]
  · intro map fuel
    simp [get_category_hierarchy]
  · intro fm h
    simp [fieldsBlock, h]

/-- Witness for C9 at concrete inputs. -/
theorem falsy_parent_no_categories_witness :
    categoriesFor { noteA with parent_id := some "" } cmapA 5 = some none ∧
    get_category_hierarchy 1 (some "") cmapA = some [] ∧
    get_category_hierarchy 1 none cmapA = some [] ∧
    fieldsBlock fmPlain =
      "  \"title\": ".data ++ jsonStr fmPlain.title ++ ",\n  \"date\": ".data ++
      jsonStr fmPlain.date ++ ",\n  \"updated\": ".data ++ jsonStr fmPlain.updated :=
  ⟨falsy_parent_no_categories.1 _ cmapA 5 rfl,
   falsy_parent_no_categories.2.1 cmapA 0,
   falsy_parent_no_categories.2.2.1 cmapA 0,
   falsy_parent_no_categories.2.2.2 fmPlain rfl⟩

/-- C2 (amended): when a tag name is requested and no tag with that exact
title exists, the run aborts with the not-found outcome before any notes
are fetched and with no partial output — but the posts and resources
directories are NOT cleaned or recreated: the tag lookup happens before
the cleaning step, so the whole directory state is returned untouched. -/
theorem tag_not_found_aborts (t : String) (m : JoplinModel) (s0 : FsState) (fuel : Nat)
    (now : DateTime) (h : ∀ tg ∈ m.tags, tg.title ≠ t) :
    main_run (some t) m s0 fuel now =
      some { state := s0, outcome := Outcome.tagNotFound, notesFetched := false, downloads := [] } := by
  unfold main_run
  have hf : m.tags.find? (fun tg => tg.title == t) = none := by
    rw [List.find?_eq_none]
    intro tg hm
    simpa using h tg hm
  simp [hf]

/-- Witness for C2 at a concrete model whose only tag is `Blog`. -/
theorem tag_not_found_aborts_witness :
    main_run (some "blog") modelB fsDirty 1 nowA =
      some { state := fsDirty, outcome := Outcome.tagNotFound, notesFetched := false, downloads := [] } :=
  tag_not_found_aborts "blog" modelB fsDirty 1 nowA (by decide)

/-- Counterexample for C2 as stated: with a leftover non-empty directory
state and a missing tag, the run aborts but the directories are returned
exactly as they were — non-empty — contradicting the claim that they are
still cleaned, recreated and left empty. -/
theorem tag_not_found_dirs_untouched :
    (main_run (some "blog") modelB fsDirty 1 nowA).map (fun r => r.state) = some fsDirty ∧
    (main_run (some "blog") modelB fsDirty 1 nowA).map (fun r => r.outcome) =
      some Outcome.tagNotFound ∧
    fsDirty.posts ≠ [] ∧ fsDirty.resources ≠ [] := by
  refine ⟨?_, ?_, by decide, by decide⟩ <;> decide

/-- C10 (amended): with a creation timestamp present and the same
resources-directory state, two invocations of the per-note processing
with the same note, notebook map and resource responses are entirely
identical — in particular they write byte-identical content to the same
path — independently of the wall clock. -/
theorem process_note_deterministic (api : ApiModel) (note : NoteData)
    (map : List (String × NotebookData)) (fuel : Nat) (fs0 : List (List Char × String))
    (now1 now2 : DateTime)
    (h : note.user_created_time.isSome = true ∨ note.created_time.isSome = true) :
    processNote api note map fuel now1 fs0 = processNote api note map fuel now2 fs0 := by
  have hd : dateStr note now1 = dateStr note now2 := by
    unfold dateStr
    cases hu : note.user_created_time with
    | some t => rfl
    | none =>
      cases hc : note.created_time with
      | some t => rfl
      | none => simp [hu, hc] at h
  have hupd : updatedStr note now1 = updatedStr note now2 := by
    unfold updatedStr
    cases note.updated_time with
    | some t => rfl
    | none => exact hd
  simp only [processNote, noteFM, hd, hupd]

/-- Witness for C10 at a concrete note, two different clock readings. -/
theorem process_note_deterministic_witness :
    processNote apiA noteA [] 1 nowA [] = processNote apiA noteA [] 1 nowB [] :=
  process_note_deterministic apiA noteA [] 1 [] nowA nowB (Or.inl (by decide))

/-- Counterexample for C10 as stated: the resources-directory state is a
hidden input the claim does not fix.  With the same note (creation
timestamp present), the same notebook map and the same resource
responses (metadata fetch succeeds, content fetch fails), the written
document differs between a run whose resources directory already holds
the file (the link is rewritten) and a run where it is absent (the
download fails, the link is left unrewritten). -/
theorem process_note_hidden_fs_input :
    noteA.user_created_time.isSome = true ∧
    (processNote apiNoFile noteA [] 1 nowA [(fnameA, "OLD")]).map (fun r => r.written) ≠
      (processNote apiNoFile noteA [] 1 nowA []).map (fun r => r.written) := by
  constructor
  · decide
  · decide

/-- Helper for C6: walking the hierarchy from the head of a well-formed
leaf-first chain yields the chain's titles reversed (root ancestor
first), given fuel beyond the chain length. -/
theorem chain_walk (map : List (String × NotebookData)) :
    ∀ (chain : List NotebookData) (n : NotebookData), chainOk map (n :: chain) →
      ∀ fuel : Nat, (n :: chain).length < fuel →
        get_category_hierarchy fuel (some n.id) map =
          some (((n :: chain).map NotebookData.title).reverse) := by
  intro chain
  induction chain with
  | nil =>
    intro n hok fuel hfuel
    obtain ⟨hid, hlook, hroot⟩ := hok
    cases fuel with
    | zero => simp at hfuel
    | succ f =>
      have hf : 1 ≤ f := by simp at hfuel; omega
      have hparent : get_category_hierarchy f n.parent_id map = some [] := by
        cases f with
        | zero => omega
        | succ g =>
          unfold truthyOptStr at hroot
          cases hp : n.parent_id with
          | none => rfl
          | some p =>
            rw [hp] at hroot
            have hpe : p = "" := by
              by_contra hne
              simp [hne] at hroot
            subst hpe
            simp [get_category_hierarchy]
      simp only [get_category_hierarchy]
      rw [if_neg hid]
      simp [hlook, hparent]
  | cons m rest ih =>
    intro n hok fuel hfuel
    obtain ⟨hid, hlook, hparent, hrest⟩ := hok
    cases fuel with
    | zero => simp at hfuel
    | succ f =>
      have hlen : (m :: rest).length < f := by
        simp at hfuel ⊢
        omega
      simp only [get_category_hierarchy]
      rw [if_neg hid]
      simp [hlook, hparent, ih m hrest f hlen]

/-- C6: for every notebook chain from a root notebook down to a note's
immediate parent, the derived category path is the ordered sequence of
notebook titles from the root ancestor first to the immediate parent
last; a note directly under a root notebook yields a one-element path;
and when an id is absent from the notebook map the traversal stops
normally (no error), treating the missing id as the root. -/
theorem category_path_spec :
    (∀ (map : List (String × NotebookData)) (chain : List NotebookData) (n : NotebookData),
        chainOk map (n :: chain) → ∀ fuel : Nat, (n :: chain).length < fuel →
          get_category_hierarchy fuel (some n.id) map =
            some (((n :: chain).map NotebookData.title).reverse)) ∧
    (∀ (map : List (String × NotebookData)) (n : NotebookData),
        chainOk map [n] → ∀ fuel : Nat, 1 < fuel →
          get_category_hierarchy fuel (some n.id) map = some [n.title]) ∧
    (∀ (map : List (String × NotebookData)) (cid : String) (fuel : Nat),
        cid ≠ "" → alookup cid map = none →
          get_category_hierarchy (fuel + 1) (some cid) map = some []) := by
  refine ⟨fun map chain n => chain_walk map chain n, ?_, ?_⟩
  · intro map n hok fuel hfuel
    have := chain_walk map [] n hok fuel (by simpa using hfuel)
    simpa using this
  · intro map cid fuel hne hlook
    simp only [get_category_hierarchy]
    rw [if_neg hne]
    simp [hlook]

/-- Witness for C6: the two-notebook chain Root → Child yields the path
`[Root, Child]`, a root-only chain yields one element, and a missing id
yields the empty path without error. -/
theorem category_path_spec_witness :
    get_category_hierarchy 3 (some "nbB") cmapA = some ["Root", "Child"] ∧
    get_category_hierarchy 2 (some "nbA") cmapA = some ["Root"] ∧
    get_category_hierarchy 1 (some "zz") cmapA = some [] :=
  ⟨category_path_spec.1 cmapA [nbRoot] nbChild
      (by exact ⟨by decide, by decide, by decide, by decide, by decide, by decide⟩)
      3 (by decide),
   category_path_spec.2.1 cmapA nbRoot
      (by exact ⟨by decide, by decide, by decide⟩) 2 (by decide),
   category_path_spec.2.2 cmapA "zz" 0 (by decide) (by decide)⟩

/-- Helper for C7: `none` is an absorbing state of the hierarchy walk. -/
theorem walkIter_absorbs (map : List (String × NotebookData)) (start : Option String)
    (t : Nat) (h : walkIter map start t = none) :
    ∀ j, walkIter map start (t + j) = none := by
  intro j
  induction j with
  | zero => simpa using h
  | succ k ih =>
    have e1 : t + (k + 1) = (t + k) + 1 := by omega
    rw [e1]
    simp only [walkIter]
    rw [ih]
    rfl

/-- Helper for C7: equal walk states evolve equally from then on. -/
theorem walkIter_shift (map : List (String × NotebookData)) (start : Option String)
    (n m : Nat) (h : walkIter map start n = walkIter map start m) :
    ∀ j, walkIter map start (n + j) = walkIter map start (m + j) := by
  intro j
  induction j with
  | zero => simpa using h
  | succ k ih =>
    have e1 : n + (k + 1) = (n + k) + 1 := by omega
    have e2 : m + (k + 1) = (m + k) + 1 := by omega
    rw [e1, e2]
    simp only [walkIter]
    rw [ih]

/-- Helper for C7: a repeated walk state recurs at every multiple of its
period. -/
theorem walkIter_pump (map : List (String × NotebookData)) (start : Option String)
    (n m : Nat) (hlt : n < m) (h : walkIter map start n = walkIter map start m) :
    ∀ k, walkIter map start (n + k * (m - n)) = walkIter map start n := by
  intro k
  induction k with
  | zero => simp
  | succ k ih =>
    have e1 : n + (k + 1) * (m - n) = (n + k * (m - n)) + (m - n) := by ring
    rw [e1]
    have h2 := walkIter_shift map start (n + k * (m - n)) n ih (m - n)
    rw [h2]
    have e3 : n + (m - n) = m := by omega
    rw [e3]
    exact h.symm

/-- Helper for C7: when the walk revisits a non-terminal state, every
state it ever looks at is live: a truthy id present in the map.  (A
falsy or absent id would drive the walk into the absorbing `none` state,
which the recurring non-`none` state rules out.) -/
theorem walk_live_of_cycle (map : List (String × NotebookData)) (start : Option String)
    (hcyc : ∃ n m, n < m ∧ walkIter map start n = walkIter map start m ∧
      walkIter map start n ≠ none) :
    ∀ t, ∃ cid nb, walkIter map start t = some cid ∧ cid ≠ "" ∧ alookup cid map = some nb := by
  obtain ⟨n, m, hlt, heq, hne⟩ := hcyc
  have hnone : ∀ t, walkIter map start t ≠ none := by
    intro t ht
    have hp1 : 1 ≤ m - n := by omega
    have hge : t ≤ n + t * (m - n) := by
      have h1 : t * 1 ≤ t * (m - n) := Nat.mul_le_mul (le_refl t) hp1
      simp at h1
      exact le_trans h1 (Nat.le_add_left _ n)
    have habs : walkIter map start (n + t * (m - n)) = none := by
      have h0 := walkIter_absorbs map start t ht (n + t * (m - n) - t)
      rwa [Nat.add_sub_cancel' hge] at h0
    rw [walkIter_pump map start n m hlt heq t] at habs
    exact hne habs
  intro t
  cases hv : walkIter map start t with
  | none => exact absurd hv (hnone t)
  | some cid =>
    by_cases hcid : cid = ""
    · exfalso
      apply hnone (t + 1)
      simp only [walkIter]
      rw [hv]
      simp [walkStep, hcid]
    · cases hlook : alookup cid map with
      | none =>
        exfalso
        apply hnone (t + 1)
        simp only [walkIter]
        rw [hv]
        simp [walkStep, hcid, hlook]
      | some nb => exact ⟨cid, nb, rfl, hcid, hlook⟩

/-- Helper for C7: a walk that only ever sees live states exhausts every
amount of fuel. -/
theorem gch_live_none (map : List (String × NotebookData)) (start : Option String)
    (hlive : ∀ t, ∃ cid nb, walkIter map start t = some cid ∧ cid ≠ "" ∧
      alookup cid map = some nb) :
    ∀ (fuel t : Nat) (cur : Option String), walkIter map start t = cur →
      get_category_hierarchy fuel cur map = none := by
  intro fuel
  induction fuel with
  | zero => intro t cur _; rfl
  | succ f ih =>
    intro t cur hcur
    obtain ⟨cid, nb, hv, hcid, hlook⟩ := hlive t
    rw [hv] at hcur
    subst hcur
    simp only [get_category_hierarchy]
    rw [if_neg hcid]
    simp only [hlook]
    have hnext : walkIter map start (t + 1) = nb.parent_id := by
      simp only [walkIter]
      rw [hv]
      simp [walkStep, hcid, hlook]
    rw [ih (t + 1) nb.parent_id hnext]

/-- Helper for C7: a rank measure that strictly decreases along every
truthy parent link the walk can reach bounds the fuel the walk needs
from any reachable state. -/
theorem walk_rank_terminates (map : List (String × NotebookData)) (start : Option String)
    (rank : String → Nat)
    (hdec : ∀ (n : Nat) (cid : String) (nb : NotebookData) (p : String),
        walkIter map start n = some cid → cid ≠ "" → alookup cid map = some nb →
        nb.parent_id = some p → p ≠ "" → rank p < rank cid) :
    ∀ (fuel n : Nat) (cur : Option String), walkIter map start n = cur →
      rankOpt rank cur + 2 ≤ fuel → (get_category_hierarchy fuel cur map).isSome = true := by
  intro fuel
  induction fuel with
  | zero => intro n cur _ h; omega
  | succ f ih =>
    intro n cur hcur hfuel
    cases cur with
    | none => simp [get_category_hierarchy]
    | some cid =>
      by_cases hcid : cid = ""
      · simp [get_category_hierarchy, hcid]
      · simp only [get_category_hierarchy]
        rw [if_neg hcid]
        cases hlook : alookup cid map with
        | none => rfl
        | some nb =>
          have hrank : rankOpt rank (some cid) = rank cid := by simp [rankOpt, hcid]
          rw [hrank] at hfuel
          have hnext : walkIter map start (n + 1) = nb.parent_id := by
            simp only [walkIter]
            rw [hcur]
            simp [walkStep, hcid, hlook]
          have hrec : (get_category_hierarchy f nb.parent_id map).isSome = true := by
            cases hp : nb.parent_id with
            | none =>
              match f, hfuel with
              | g + 1, _ => simp [get_category_hierarchy]
            | some p =>
              by_cases hpe : p = ""
              · subst hpe
                match f, hfuel with
                | g + 1, _ => simp [get_category_hierarchy]
              · apply ih (n + 1) (some p) (by rw [← hp]; exact hnext)
                have : rank p < rank cid := hdec n cid nb p hcur hcid hlook hp hpe
                simp [rankOpt, hpe]
                omega
          cases hrec2 : get_category_hierarchy f nb.parent_id map with
          | none => rw [hrec2] at hrec; simp at hrec
          | some rest => simp [hrec2]

/-- C7: the category walk terminates from every start id whenever the
parent graph reachable from that id is acyclic — rendered as a rank
measure that strictly decreases along every truthy parent link the walk
can actually reach (the hypothesis quantifies only over the reachable
ids `walkIter map start n`; edges elsewhere in the map, including
unreachable cycles, are unconstrained) — with a fuel bound of rank plus
two; and, with no cycle detection, every parent cycle reachable from the
start id causes non-termination: for every map and start whose walk
revisits a non-terminal state, the fuel-bounded walk returns `none`
(fuel exhausted) for every amount of fuel. -/
theorem hierarchy_termination :
    (∀ (map : List (String × NotebookData)) (start : Option String) (rank : String → Nat),
        (∀ (n : Nat) (cid : String) (nb : NotebookData) (p : String),
            walkIter map start n = some cid → cid ≠ "" → alookup cid map = some nb →
            nb.parent_id = some p → p ≠ "" → rank p < rank cid) →
        ∀ fuel : Nat, rankOpt rank start + 2 ≤ fuel →
          (get_category_hierarchy fuel start map).isSome = true) ∧
    (∀ (map : List (String × NotebookData)) (start : Option String),
        (∃ n m, n < m ∧ walkIter map start n = walkIter map start m ∧
            walkIter map start n ≠ none) →
        ∀ fuel : Nat, get_category_hierarchy fuel start map = none) := by
  constructor
  · intro map start rank hdec fuel hfuel
    exact walk_rank_terminates map start rank hdec fuel 0 start rfl hfuel
  · intro map start hcyc fuel
    exact gch_live_none map start (walk_live_of_cycle map start hcyc) fuel 0 start rfl

/-- Witness for C7: on the acyclic one-notebook map the walk succeeds
with the rank bound, and the non-termination half is applied to the
self-parent map `cycMapA`, whose walk revisits the state `some "a"`
after one step, at fuel 5. -/
theorem hierarchy_termination_witness :
    (get_category_hierarchy 2 (some "r") rootMapA).isSome = true ∧
    get_category_hierarchy 5 (some "a") cycMapA = none := by
  constructor
  · apply hierarchy_termination.1 rootMapA (some "r") (fun _ => 0)
    · intro n cid nb p hiter hcid hlook hp hpe
      simp only [rootMapA, alookup] at hlook
      by_cases hc : "r" = cid
      · rw [if_pos hc] at hlook
        cases hlook
        simp at hp
      · rw [if_neg hc] at hlook
        cases hlook
    · decide
  · exact hierarchy_termination.2 cycMapA (some "a")
      ⟨0, 1, by decide, by decide, by decide⟩ 5

/-- C1 (amended): a run of the export is entirely independent of the
prior directory state once it reaches processing (both directories are
deleted and recreated first), so a second run over unchanged upstream
data returns the identical result — identical posts-directory content
but also the identical download list: every resource is re-downloaded,
because the pre-run cleaning empties the resources directory.  Presence
caching works only within a run: a resource whose file already exists at
check time is not downloaded, only its link is rewritten. -/
theorem export_rerun :
    (∀ (tag : Option String) (m : JoplinModel) (s s' : FsState) (fuel : Nat) (now : DateTime)
        (r : RunResult), main_run tag m s fuel now = some r → r.outcome = Outcome.finished →
        main_run tag m s' fuel now = some r) ∧
    (∀ (api : ApiModel) (st : LoopState) (rid : List Char) (meta : ResourceMeta),
        api.get_resource rid = some meta →
        (alookup (resFilenameOf rid meta) st.fs).isSome = true →
        processResourceStep api st rid =
          { st with body := pyReplace st.body (patOf rid) (newLinkOf rid meta) }) := by
  constructor
  · intro tag m s s' fuel now r hr hout
    cases tag with
    | none =>
      simp only [main_run, mainWithNotes] at hr ⊢
      by_cases he : m.allNotes.isEmpty
      · rw [if_pos he] at hr
        cases hr
        simp at hout
      · rw [if_neg he] at hr
        rw [if_neg he]
        exact hr
    | some t =>
      simp only [main_run] at hr ⊢
      cases hfind : m.tags.find? (fun tg => tg.title == t) with
      | none =>
        rw [hfind] at hr
        simp at hr
        rw [← hr] at hout
        simp at hout
      | some tg =>
        rw [hfind] at hr
        simp only [] at hr
        simp [hfind]
        simp only [mainWithNotes] at hr ⊢
        by_cases he : (m.notesByTag tg.id).isEmpty
        · rw [if_pos he] at hr
          cases hr
          simp at hout
        · rw [if_neg he] at hr
          rw [if_neg he]
          exact hr
  · intro api st rid meta hmeta hlook
    simp [processResourceStep, hmeta, hlook]

/-- Witness for C1: the amended statement applied at the concrete model
`modelA` (second run started from a dirty state returns the exact result
of the first) and at a step whose file is already present. -/
theorem export_rerun_witness :
    main_run none modelA fsDirty 3 nowA = some r1A ∧
    processResourceStep apiA stPresentA ridA =
      { stPresentA with body := pyReplace stPresentA.body (patOf ridA) (newLinkOf ridA metaA) } :=
  ⟨export_rerun.1 none modelA ⟨[], []⟩ fsDirty 3 nowA r1A (by decide) (by decide),
   export_rerun.2 apiA stPresentA ridA metaA (by decide) (by decide)⟩

/-- Counterexample for C1 as stated: after a first full export of
`modelA` the resource file is present by filename in the resources
directory, yet the second run downloads it again (its download list is
non-empty and names exactly that file) — the pre-run cleaning deletes
the cache.  The posts directories of the two runs do coincide. -/
theorem rerun_redownloads :
    ((main_run none modelA ⟨[], []⟩ 3 nowA).bind (fun r1 =>
        (main_run none modelA r1.state 3 nowA).map (fun r2 =>
          ((alookup fnameA r1.state.resources).isSome, r2.downloads,
            decide (r2.state.posts = r1.state.posts))))) =
      some (true, [fnameA], true) := by decide

/-- Helper for C4: every filename in the download log of the resource
loop either was already logged or is `<rid><ext>` for some processed id
whose metadata fetch succeeded, with the extension derived by the
filename-then-title-then-`.png` rule embodied in `extFor`. -/
theorem loop_downloads (api : ApiModel) :
    ∀ (links : List (List Char)) (st : LoopState) (f : List Char),
      f ∈ (rewriteLoop api links st).downloads →
      f ∈ st.downloads ∨ ∃ rid meta, rid ∈ links ∧ api.get_resource rid = some meta ∧
        f = resFilenameOf rid meta := by
  intro links
  induction links with
  | nil =>
    intro st f hf
    exact Or.inl hf
  | cons rid rest ih =>
    intro st f hf
    have hstep := ih (processResourceStep api st rid) f hf
    rcases hstep with hmem | ⟨rid', meta, hm, hg, he⟩
    · cases hg : api.get_resource rid with
      | none =>
        simp only [processResourceStep, hg] at hmem
        exact Or.inl hmem
      | some meta =>
        by_cases hl : (alookup (resFilenameOf rid meta) st.fs).isSome = true
        · simp only [processResourceStep, hg, hl, if_pos hl] at hmem
          exact Or.inl hmem
        · cases hgf : api.get_resource_file rid with
          | none =>
            simp only [processResourceStep, hg, hgf, if_neg hl] at hmem
            exact Or.inl hmem
          | some content =>
            simp only [processResourceStep, hg, hgf, if_neg hl] at hmem
            simp only [List.mem_append, List.mem_singleton] at hmem
            rcases hmem with hmem | hmem
            · exact Or.inl hmem
            · exact Or.inr ⟨rid, meta, List.mem_cons_self rid rest, hg, hmem⟩
    · exact Or.inr ⟨rid', meta, List.mem_cons_of_mem rid hm, hg, he⟩

/-- C4 (amended): every file downloaded by `process_note` is named
`<resourceId><extension>`, where the extension is split off the metadata
`filename` when that is truthy, otherwise off the metadata `title`, with
the literal `.png` as the final fallback when the chosen name yields no
extension (the `extFor` rule).  The claim's rule — the `filename` field
alone with a direct `.png` fallback — omits the title step. -/
theorem download_filename_rule (api : ApiModel) (note : NoteData)
    (map : List (String × NotebookData)) (fuel : Nat) (now : DateTime)
    (fs0 : List (List Char × String)) (r : ProcessResult) (f : List Char)
    (hr : processNote api note map fuel now fs0 = some r) (hf : f ∈ r.downloads) :
    ∃ rid meta, rid ∈ findall (note.body.getD "").data ∧
      api.get_resource rid = some meta ∧ f = rid ++ extFor meta := by
  by_cases hskip : (!(truthyOptStr note.title) || !(truthyOptStr note.body)) = true
  · simp only [processNote, if_pos hskip] at hr
    cases hr
    simp at hf
  · simp only [processNote, if_neg hskip] at hr
    cases hc : categoriesFor note map fuel with
    | none =>
      rw [hc] at hr
      exact Option.noConfusion hr
    | some cats =>
      rw [hc] at hr
      simp only [Option.some.injEq] at hr
      have hdl : r.downloads =
          (rewriteLoop api (findall (note.body.getD "").data)
            { body := (note.body.getD "").data, fs := fs0, downloads := [] }).downloads := by
        rw [← hr]
      rw [hdl] at hf
      have := loop_downloads api (findall (note.body.getD "").data)
        { body := (note.body.getD "").data, fs := fs0, downloads := [] } f hf
      rcases this with hmem | ⟨rid, meta, hm, hg, he⟩
      · simp at hmem
      · exact ⟨rid, meta, hm, hg, he⟩

/-- Witness for C4: the amended rule applied to the concrete export of
`noteA` under `apiTitleOnly`, whose downloaded file is named by the
title-derived `.jpg` extension. -/
theorem download_filename_rule_witness :
    ∃ rid meta, rid ∈ findall (noteA.body.getD "").data ∧
      apiTitleOnly.get_resource rid = some meta ∧
      ridA ++ ".jpg".data = rid ++ extFor meta := by
  rcases hpn : processNote apiTitleOnly noteA [] 1 nowA [] with - | r
  · exact absurd hpn (by decide)
  · have hf : ridA ++ ".jpg".data ∈ r.downloads := by
      have hd : (processNote apiTitleOnly noteA [] 1 nowA []).map ProcessResult.downloads =
          some [ridA ++ ".jpg".data] := by decide
      rw [hpn] at hd
      have hd2 : r.downloads = [ridA ++ ".jpg".data] := by simpa using hd
      rw [hd2]
      exact List.mem_singleton.mpr rfl
    exact download_filename_rule apiTitleOnly noteA [] 1 nowA [] r (ridA ++ ".jpg".data) hpn hf

/-- Counterexample for C4 as stated: with a falsy metadata filename and
title `pic.jpg`, the spec rule (filename field only, `.png` fallback)
predicts `<id>.png`, but the script downloads `<id>.jpg`, derived from
the title. -/
theorem ext_title_fallback :
    (processNote apiTitleOnly noteA [] 1 nowA []).map (fun r => r.downloads) =
      some [ridA ++ ".jpg".data] ∧
    specExtOfFilenameField metaTitleOnly = ".png".data ∧
    ridA ++ ".jpg".data ≠ ridA ++ specExtOfFilenameField metaTitleOnly := by
  refine ⟨by decide, by decide, by decide⟩

/-- Helper: Python `strip` is the identity on a list whose first and
last characters are not whitespace. -/
theorem pyStrip_eq_self (l : List Char)
    (h1 : ∀ c, l.head? = some c → isPySpace c = false)
    (h2 : ∀ c, l.getLast? = some c → isPySpace c = false) : pyStrip l = l := by
  cases l with
  | nil => rfl
  | cons a t =>
    unfold pyStrip
    have hd : List.dropWhile isPySpace (a :: t) = a :: t := by
      have := h1 a rfl
      simp [List.dropWhile_cons, this]
    rw [hd]
    cases hrev : (a :: t).reverse with
    | nil => simp at hrev
    | cons b rb =>
      have hb : isPySpace b = false := by
        apply h2
        rw [← List.head?_reverse, hrev]
        rfl
      rw [List.dropWhile_cons, hb]
      simp only [Bool.false_eq_true, if_false]
      rw [← hrev, List.reverse_reverse]

/-- Helper for C5: stripping the outer braces of the indent-2 JSON
serialization leaves the field block wrapped in one leading and one
trailing newline (the newlines that followed the opening and preceded
the closing brace). -/
theorem rob_dumps (fm : FrontMatter) :
    remove_outer_braces (dumpsFrontMatter fm) = '\n' :: fieldsBlock fm ++ ['\n'] := by
  have hshape : dumpsFrontMatter fm =
      Char.ofNat 123 :: (('\n' :: fieldsBlock fm ++ ['\n']) ++ [Char.ofNat 125]) := by
    simp [dumpsFrontMatter]
  have hhead : (dumpsFrontMatter fm).head? = some (Char.ofNat 123) := by
    rw [hshape]; rfl
  have hlast : (dumpsFrontMatter fm).getLast? = some (Char.ofNat 125) := by
    rw [hshape]
    rw [show Char.ofNat 123 :: (('\n' :: fieldsBlock fm ++ ['\n']) ++ [Char.ofNat 125]) =
        (Char.ofNat 123 :: ('\n' :: fieldsBlock fm ++ ['\n'])) ++ [Char.ofNat 125] from rfl]
    exact List.getLast?_concat _
  have hstrip : pyStrip (dumpsFrontMatter fm) = dumpsFrontMatter fm := by
    apply pyStrip_eq_self
    · intro c hc; rw [hhead] at hc; cases hc; decide
    · intro c hc; rw [hlast] at hc; cases hc; decide
  simp only [remove_outer_braces]
  rw [hstrip, if_pos ⟨hhead, hlast⟩, hshape]
  simp only [List.drop_succ_cons, List.drop_zero]
  exact List.dropLast_concat

/-- C5 (amended): the document written for an exported note is
`;;;<stripped-block>\n;;;\n\n<body>` where the stripped JSON block itself
begins and ends with a newline — so the rendered document is
`;;;\n<field lines>\n\n;;;\n\n<body>`: a blank line separates the field
list from the closing `;;;` delimiter line, and exactly one blank line
separates that delimiter from the rewritten body.  The claim's template,
which puts the closing delimiter directly after the field block, does
not match the written bytes. -/
theorem document_format (api : ApiModel) (note : NoteData)
    (map : List (String × NotebookData)) (fuel : Nat) (now : DateTime)
    (fs0 : List (List Char × String)) (r : ProcessResult) (p : String) (c : List Char)
    (hr : processNote api note map fuel now fs0 = some r)
    (hw : r.written = some (p, c)) :
    ∃ cats, categoriesFor note map fuel = some cats ∧
      p = note.id ++ ".md" ∧
      c = ";;;\n".data ++ fieldsBlock (noteFM note now cats) ++ "\n\n;;;\n\n".data ++
          (rewriteLoop api (findall (note.body.getD "").data)
            { body := (note.body.getD "").data, fs := fs0, downloads := [] }).body := by
  by_cases hskip : (!(truthyOptStr note.title) || !(truthyOptStr note.body)) = true
  · simp only [processNote, if_pos hskip] at hr
    cases hr
    simp at hw
  · simp only [processNote, if_neg hskip] at hr
    cases hc : categoriesFor note map fuel with
    | none =>
      rw [hc] at hr
      exact Option.noConfusion hr
    | some cats =>
      rw [hc] at hr
      simp only [Option.some.injEq] at hr
      refine ⟨cats, rfl, ?_⟩
      have hwr : r.written =
          some (note.id ++ ".md",
            ";;;".data ++ remove_outer_braces (dumpsFrontMatter (noteFM note now cats)) ++
            "\n;;;\n\n".data ++
            (rewriteLoop api (findall (note.body.getD "").data)
              { body := (note.body.getD "").data, fs := fs0, downloads := [] }).body) := by
        rw [← hr]
      rw [hw] at hwr
      simp only [Option.some.injEq, Prod.mk.injEq] at hwr
      obtain ⟨hp, hcont⟩ := hwr
      refine ⟨hp, ?_⟩
      have e1 : (";;;\n".data : List Char) = [';', ';', ';', '\n'] := rfl
      have e2 : ("\n\n;;;\n\n".data : List Char) = ['\n', '\n', ';', ';', ';', '\n', '\n'] := rfl
      rw [hcont, rob_dumps, e1, e2]
      simp

/-- Witness for C5: the amended format applied to the concrete export of
`notePlain`. -/
theorem document_format_witness :
    ∃ cats, categoriesFor notePlain [] 1 = some cats ∧
      ("n2.md" : String) = notePlain.id ++ ".md" ∧
      docPlain = ";;;\n".data ++ fieldsBlock (noteFM notePlain nowA cats) ++ "\n\n;;;\n\n".data ++
        (rewriteLoop apiA (findall (notePlain.body.getD "").data)
          { body := (notePlain.body.getD "").data, fs := [], downloads := [] }).body :=
  document_format apiA notePlain [] 1 nowA [] rPlain "n2.md" docPlain (by decide) (by decide)

/-- Counterexample for C5 as stated: the written bytes differ from the
claim's template under either reading of the json-like field block —
taken verbatim as the brace-stripped serialization (then the template
has a spurious newline right after the opening delimiter) or trimmed
(then the template misses the blank line before the closing delimiter). -/
theorem document_format_blank_line :
    (processNote apiA notePlain [] 1 nowA []).map (fun r => r.written) =
      some (some ("n2.md", docPlain)) ∧
    docPlain ≠
      ";;;\n".data ++ remove_outer_braces (dumpsFrontMatter fmPlain) ++ "\n;;;\n\n".data ++
        "hello".data ∧
    docPlain ≠
      ";;;\n".data ++ pyStrip (remove_outer_braces (dumpsFrontMatter fmPlain)) ++
        "\n;;;\n\n".data ++ "hello".data := by
  refine ⟨by decide, by decide, by decide⟩

/-! Machinery for C3: occurrences after `str.replace`. -/

/-- Helper: a prefix of an append splits at the boundary. -/
theorem prefixAppendSplit {α : Type} {l a b : List α} (h : l <+: a ++ b) :
    l <+: a ∨ (a <+: l ∧ l.drop a.length <+: b) := by
  obtain ⟨t, ht⟩ := h
  by_cases hle : l.length ≤ a.length
  · left
    have hl : l = (a ++ b).take l.length := List.prefix_iff_eq_take.mp ⟨t, ht⟩
    rw [List.take_append_eq_append_take, Nat.sub_eq_zero_of_le hle] at hl
    simp only [List.take_zero, List.append_nil] at hl
    rw [hl]
    exact List.take_prefix _ _
  · push_neg at hle
    have hal : a.length ≤ l.length := Nat.le_of_lt hle
    right
    constructor
    · have ha : a = l.take a.length := by
        have h0 : (l ++ t).take a.length = a := by
          rw [ht, List.take_append_eq_append_take]
          simp
        rw [List.take_append_eq_append_take, Nat.sub_eq_zero_of_le hal] at h0
        simp only [List.take_zero, List.append_nil] at h0
        exact h0.symm
      rw [ha]
      exact List.take_prefix _ _
    · refine ⟨t, ?_⟩
      have h0 : (l ++ t).drop a.length = b := by
        rw [ht, List.drop_append_eq_append_drop]
        simp
      rw [List.drop_append_eq_append_drop, Nat.sub_eq_zero_of_le hal] at h0
      simpa using h0

/-- Helper: an infix of an append lies in the left part, in the right
part, or straddles the boundary with a non-trivial split of itself. -/
theorem infixAppendSplit {α : Type} {pat a b : List α} (h : pat <:+: a ++ b) :
    pat <:+: a ∨ pat <:+: b ∨
      ∃ k, 0 < k ∧ k < pat.length ∧ pat.take k <:+ a ∧ pat.drop k <+: b := by
  obtain ⟨u, v, huv⟩ := h
  have ha0 : a = (u ++ (pat ++ v)).take a.length := by
    rw [List.append_assoc] at huv
    rw [huv]
    simp
  have hb0 : b = (u ++ (pat ++ v)).drop a.length := by
    rw [List.append_assoc] at huv
    rw [huv]
    simp
  by_cases h1 : u.length + pat.length ≤ a.length
  · left
    have hu : u.length ≤ a.length := by omega
    have e1 : (u ++ (pat ++ v)).take a.length =
        u ++ (pat ++ v).take (a.length - u.length) := by
      rw [List.take_append_eq_append_take, List.take_of_length_le hu]
    have e2 : (pat ++ v).take (a.length - u.length) =
        pat ++ v.take (a.length - u.length - pat.length) := by
      rw [List.take_append_eq_append_take, List.take_of_length_le (by omega)]
    refine ⟨u, v.take (a.length - u.length - pat.length), ?_⟩
    rw [List.append_assoc, ← e2, ← e1, ← ha0]
  · by_cases h2 : a.length ≤ u.length
    · right; left
      have e1 : (u ++ (pat ++ v)).drop a.length =
          u.drop a.length ++ (pat ++ v) := by
        rw [List.drop_append_eq_append_drop, Nat.sub_eq_zero_of_le h2]
        simp
      refine ⟨u.drop a.length, v, ?_⟩
      rw [List.append_assoc, ← e1, ← hb0]
    · right; right
      push_neg at h1 h2
      have hu : u.length ≤ a.length := by omega
      have hk : a.length - u.length ≤ pat.length := by omega
      refine ⟨a.length - u.length, by omega, by omega, ?_, ?_⟩
      · have e1 : (u ++ (pat ++ v)).take a.length =
            u ++ (pat ++ v).take (a.length - u.length) := by
          rw [List.take_append_eq_append_take, List.take_of_length_le hu]
        have e2 : (pat ++ v).take (a.length - u.length) =
            pat.take (a.length - u.length) := by
          rw [List.take_append_eq_append_take, Nat.sub_eq_zero_of_le hk]
          simp
        refine ⟨u, ?_⟩
        rw [← e2, ← e1, ← ha0]
      · have e1 : (u ++ (pat ++ v)).drop a.length =
            (pat ++ v).drop (a.length - u.length) := by
          rw [List.drop_append_eq_append_drop, List.drop_eq_nil_of_le h2.le]
          simp
        have e2 : (pat ++ v).drop (a.length - u.length) =
            pat.drop (a.length - u.length) ++ v := by
          rw [List.drop_append_eq_append_drop, Nat.sub_eq_zero_of_le hk]
          simp
        refine ⟨v, ?_⟩
        rw [← e2, ← e1, ← hb0]

/-- Helper: a list prefix bounded by the length of the left summand is a
prefix of the left summand. -/
theorem prefixShrink {α : Type} {u a b : List α} (h : u <+: a ++ b)
    (hle : u.length ≤ a.length) : u <+: a := by
  rcases prefixAppendSplit h with h1 | ⟨h2, -⟩
  · exact h1
  · have hlen : a.length = u.length := le_antisymm h2.length_le hle
    have : a = u := h2.eq_of_length hlen
    rw [← this]

/-- Helper: a list suffix bounded by the length of the right summand is a
suffix of the right summand. -/
theorem suffixShrink {α : Type} {v a b : List α} (h : v <:+ a ++ b)
    (hle : v.length ≤ b.length) : v <:+ b := by
  have hr : v.reverse <+: b.reverse ++ a.reverse := by
    have h0 := List.reverse_prefix.mpr h
    rw [List.reverse_append] at h0
    exact h0
  have := prefixShrink hr (by simpa using hle)
  have h1 := List.reverse_prefix.mp (by simpa using this)
  simpa using h1

/-- Helper: the last element witnessed by `getLast?` is a member. -/
theorem mem_of_getLast?_eq {α : Type} {l : List α} {c : α} (h : l.getLast? = some c) : c ∈ l := by
  obtain ⟨hne, hx⟩ := List.mem_getLast?_eq_getLast (show c ∈ l.getLast? by simp [h])
  rw [hx]
  exact List.getLast_mem hne

/-- Helper: a non-empty suffix fixes the last element. -/
theorem getLast?_of_suffix {α : Type} {u v : List α} (h : u <:+ v) (hne : u ≠ []) :
    v.getLast? = u.getLast? := by
  obtain ⟨t, ht⟩ := h
  rw [← ht]
  exact List.getLast?_append_of_ne_nil t hne

/-- Helper: a non-empty prefix fixes the first element. -/
theorem prefix_head_eq {α : Type} {u v : List α} (h : u <+: v) (hne : u ≠ []) :
    v.head? = u.head? := by
  obtain ⟨t, ht⟩ := h
  rw [← ht]
  cases u with
  | nil => exact absurd rfl hne
  | cons a tu => rfl

/-- Helper: a two-element infix of an append is inside one summand or
marks the exact boundary characters. -/
theorem pairInfixAppend {a b : Char} {x y : List Char} (h : [a, b] <:+: x ++ y) :
    [a, b] <:+: x ∨ [a, b] <:+: y ∨ (x.getLast? = some a ∧ y.head? = some b) := by
  rcases infixAppendSplit h with h | h | ⟨k, hk0, hk2, hks, hkp⟩
  · exact Or.inl h
  · exact Or.inr (Or.inl h)
  · right; right
    have hk1 : k = 1 := by simp at hk2; omega
    subst hk1
    constructor
    · have hs : [a] <:+ x := by simpa using hks
      obtain ⟨t, ht⟩ := hs
      rw [← ht]
      exact List.getLast?_concat t
    · have hp : [b] <+: y := by simpa using hkp
      have := prefix_head_eq hp (by simp)
      simpa using this

/-- Helper: a lowercase-hex character is none of the regex punctuation
characters that delimit an internal resource link. -/
theorem lowerHex_ne (c : Char) (h : isLowerHex c = true) :
    c ≠ '(' ∧ c ≠ ')' ∧ c ≠ ':' ∧ c ≠ '/' := by
  refine ⟨?_, ?_, ?_, ?_⟩ <;> rintro rfl <;> revert h <;> decide

/-- Helper: characters absent from a list cannot occur after the last
occurrence index found by `rfindIdx` because there is none. -/
theorem rfind_none_not_mem (c : Char) : ∀ p, rfindIdx c p = none → c ∉ p := by
  intro p
  induction p with
  | nil => intro _ h; simp at h
  | cons x t ih =>
    intro h hmem
    simp only [rfindIdx] at h
    cases hr : rfindIdx c t with
    | some i => rw [hr] at h; exact Option.noConfusion h
    | none =>
      rw [hr] at h
      by_cases hx : x = c
      · rw [if_pos hx] at h; exact Option.noConfusion h
      · rcases List.mem_cons.mp hmem with hm | hm
        · exact hx hm.symm
        · exact ih hr hm

/-- Helper: no occurrence of the character lies strictly after the index
returned by `rfindIdx`. -/
theorem rfind_last (c : Char) : ∀ p s, rfindIdx c p = some s → c ∉ p.drop (s + 1) := by
  intro p
  induction p with
  | nil => intro s h; simp [rfindIdx] at h
  | cons x t ih =>
    intro s h
    simp only [rfindIdx] at h
    cases hr : rfindIdx c t with
    | some i =>
      rw [hr] at h
      injection h with h
      rw [← h]
      simpa using ih i hr
    | none =>
      rw [hr] at h
      by_cases hx : x = c
      · rw [if_pos hx] at h
        injection h with h
        rw [← h]
        simpa using rfind_none_not_mem c t hr
      · rw [if_neg hx] at h; exact Option.noConfusion h

/-- Helper: the extension returned by `splitext` never contains a path
separator (the split only happens when the last dot lies after the last
separator). -/
theorem splitextExt_no_slash (p : List Char) : '/' ∉ splitextExt p := by
  unfold splitextExt
  cases hd : rfindIdx '.' p with
  | none => simp
  | some d =>
    cases hs : rfindIdx '/' p with
    | none =>
      simp only []
      split
      · intro hmem
        exact rfind_none_not_mem '/' p hs (List.drop_subset _ _ hmem)
      · simp
    | some s =>
      simp only []
      split
      · next hcond =>
        intro hmem
        obtain ⟨hle, -⟩ := hcond
        have hsub : '/' ∈ p.drop (s + 1) := by
          have : p.drop d = (p.drop (s + 1)).drop (d - (s + 1)) := by
            rw [List.drop_drop]
            congr 1
            omega
          rw [this] at hmem
          exact List.drop_subset _ _ hmem
        exact rfind_last '/' p s hs hsub
      · simp

/-- Helper: the derived extension (filename, title, `.png` fallback)
never contains a path separator. -/
theorem extFor_no_slash (meta : ResourceMeta) : '/' ∉ extFor meta := by
  by_cases he : splitextExt (pyOrStr meta.filename (pyOrStr meta.title "")).data = []
  · simp [extFor, he]
  · simp only [extFor, if_neg he]
    exact splitextExt_no_slash _

/-- Helper: the pattern of an internal link is non-empty. -/
theorem patOf_ne_nil (rid : List Char) : patOf rid ≠ [] := by simp [patOf]

/-- Helper: length of the internal-link pattern. -/
theorem patOf_length (rid : List Char) : (patOf rid).length = rid.length + 4 := by
  simp [patOf]

/-- Helper: the replacement link text starts with an opening parenthesis. -/
theorem newLinkOf_head? (rid : List Char) (meta : ResourceMeta) :
    (newLinkOf rid meta).head? = some '(' := rfl

/-- Helper: the replacement link text ends with a closing parenthesis. -/
theorem newLinkOf_getLast? (rid : List Char) (meta : ResourceMeta) :
    (newLinkOf rid meta).getLast? = some ')' := by
  have hshape : newLinkOf rid meta =
      ('(' :: ("/resources/".data ++ resFilenameOf rid meta)) ++ [')'] := by
    simp [newLinkOf]
  rw [hshape]
  exact List.getLast?_concat _

/-- Helper: lower bound on the replacement link length for a
32-character id. -/
theorem newLinkOf_length (rid : List Char) (meta : ResourceMeta) (h32 : rid.length = 32) :
    36 ≤ (newLinkOf rid meta).length := by
  have h11 : ("/resources/".data : List Char).length = 11 := rfl
  simp [newLinkOf, resFilenameOf, h11, h32]
  omega

/-- Helper: the two-character sequence colon-slash never occurs in a
replacement link: its only slashes are the fixed `/resources/` ones
(preceded by `(` and `s`), the id is hexadecimal, and the extension is
slash-free. -/
theorem colonSlash_not_in_newLink (rid : List Char) (meta : ResourceMeta)
    (hhex : ∀ c ∈ rid, isLowerHex c = true) :
    ¬ [':', '/'] <:+: newLinkOf rid meta := by
  intro h
  have hshape : newLinkOf rid meta =
      '(' :: ("/resources/".data ++ (rid ++ (extFor meta ++ [')']))) := by
    simp [newLinkOf, resFilenameOf]
  rw [hshape] at h
  rcases List.infix_cons_iff.mp h with h | h
  · have hh := prefix_head_eq h (by decide)
    exact absurd (show some '(' = some ':' from hh) (by decide)
  · rcases pairInfixAppend h with h | h | ⟨hx, hy⟩
    · revert h; decide
    · rcases pairInfixAppend h with h | h | ⟨hx, hy⟩
      · have hm : (':' : Char) ∈ rid := h.subset (List.mem_cons_self _ _)
        exact (lowerHex_ne ':' (hhex _ hm)).2.2.1 rfl
      · rcases pairInfixAppend h with h | h | ⟨hx, hy⟩
        · have hm : ('/' : Char) ∈ extFor meta :=
            h.subset (List.mem_cons_of_mem _ (List.mem_cons_self _ _))
          exact extFor_no_slash meta hm
        · have := h.length_le
          simp at this
        · exact absurd hy (by decide)
      · have hm : (':' : Char) ∈ rid := mem_of_getLast?_eq hx
        exact (lowerHex_ne ':' (hhex _ hm)).2.2.1 rfl
    · exact absurd hx (by decide)

/-- Helper: no proper non-empty prefix of an internal-link pattern (for a
hex id) is a suffix of a list ending in a closing parenthesis, because
such prefixes never end in one. -/
theorem patOf_take_not_suffix (rid : List Char) (hhex : ∀ c ∈ rid, isLowerHex c = true)
    (new' : List Char) (hlast : new'.getLast? = some ')') :
    ∀ u, u <+: patOf rid → u ≠ [] → u.length < (patOf rid).length → ¬ u <:+ new' := by
  intro u hu hne hlen hsuf
  have hul : u.getLast? = some ')' := by
    rw [← (getLast?_of_suffix hsuf hne), hlast]
  have hmem : (')' : Char) ∈ u := mem_of_getLast?_eq hul
  have hfront : u <+: ('(' :: ':' :: '/' :: rid) := by
    have hshape : patOf rid = ('(' :: ':' :: '/' :: rid) ++ [')'] := by simp [patOf]
    rw [hshape] at hu hlen
    apply prefixShrink hu
    simp at hlen ⊢
    omega
  have hin : (')' : Char) ∈ ('(' :: ':' :: '/' :: rid) := hfront.subset hmem
  rcases List.mem_cons.mp hin with h | hin
  · exact absurd h (by decide)
  rcases List.mem_cons.mp hin with h | hin
  · exact absurd h (by decide)
  rcases List.mem_cons.mp hin with h | hin
  · exact absurd h (by decide)
  exact (lowerHex_ne ')' (hhex _ hin)).2.1 rfl

/-- Helper: no proper non-empty suffix of an internal-link pattern (for a
hex id) is prefix-comparable with a list that starts with an opening
parenthesis and is at least as long as the pattern. -/
theorem patOf_drop_conditions (rid : List Char) (hhex : ∀ c ∈ rid, isLowerHex c = true)
    (new' : List Char) (hhead : new'.head? = some '(')
    (hlong : (patOf rid).length ≤ new'.length) :
    ∀ v, v <:+ patOf rid → v ≠ [] → v.length < (patOf rid).length →
      ¬ v <+: new' ∧ ¬ new' <+: v := by
  intro v hv hne hlen
  constructor
  · intro hpre
    have hvh : v.head? = some '(' := by
      rw [← (prefix_head_eq hpre hne), hhead]
    have hmem : ('(' : Char) ∈ v := by
      cases v with
      | nil => exact absurd rfl hne
      | cons a t => cases hvh; exact List.mem_cons_self _ _
    have htail : v <:+ (':' :: '/' :: rid ++ [')']) := by
      have hshape : patOf rid = ['('] ++ (':' :: '/' :: rid ++ [')']) := by simp [patOf]
      rw [hshape] at hv hlen
      apply suffixShrink hv
      simp at hlen ⊢
      omega
    have hin : ('(' : Char) ∈ (':' :: '/' :: rid ++ [')']) := htail.subset hmem
    rcases List.mem_cons.mp hin with h | hin
    · exact absurd h (by decide)
    rcases List.mem_cons.mp hin with h | hin
    · exact absurd h (by decide)
    rcases List.mem_append.mp hin with hin | h
    · exact (lowerHex_ne '(' (hhex _ hin)).1 rfl
    · rcases List.mem_cons.mp h with h | h
      · exact absurd h (by decide)
      · simp at h
  · intro hpre
    have := hpre.length_le
    omega

/-- Helper: matched prefixes of the replaced text that start strictly
inside the pattern trace back to the original scanned text: the
replacement cannot supply them, being prefix-incomparable with every
proper suffix of the pattern. -/
theorem replaceFuel_drop_to_orig (pat pat' new' : List Char)
    (h3 : ∀ v, v <:+ pat → v ≠ [] → v.length < pat.length → ¬ v <+: new' ∧ ¬ new' <+: v) :
    ∀ fuel t, t.length ≤ fuel → ∀ j, 0 < j → j < pat.length →
      pat.drop j <+: replaceFuel pat' new' fuel t → pat.drop j <+: t := by
  intro fuel
  induction fuel with
  | zero =>
    intro t hlen j hj0 hjlen h
    simpa [replaceFuel] using h
  | succ f ih =>
    intro t hlen j hj0 hjlen h
    simp only [replaceFuel] at h
    split at h
    · have hv : pat.drop j <:+ pat := List.drop_suffix j pat
      have hvne : pat.drop j ≠ [] := by
        intro hnil
        have := congrArg List.length hnil
        simp at this
        omega
      have hvlen : (pat.drop j).length < pat.length := by simp; omega
      rcases prefixAppendSplit h with hcase | ⟨hcase, -⟩
      · exact absurd hcase ((h3 _ hv hvne hvlen).1)
      · exact absurd hcase ((h3 _ hv hvne hvlen).2)
    · cases t with
      | nil => exact h
      | cons c t' =>
        rw [List.drop_eq_getElem_cons hjlen] at h ⊢
        rcases List.cons_prefix_cons.mp h with ⟨hc, htail⟩
        by_cases hj1 : j + 1 < pat.length
        · have hrec := ih t' (by simpa using Nat.le_of_succ_le_succ hlen) (j + 1)
            (by omega) hj1 htail
          exact List.cons_prefix_cons.mpr ⟨hc, hrec⟩
        · have hdropnil : pat.drop (j + 1) = [] := List.drop_eq_nil_of_le (by omega)
          rw [hdropnil]
          exact List.cons_prefix_cons.mpr ⟨hc, List.nil_prefix⟩

/-- Helper (master lemma for C3): `str.replace` leaves no occurrence of
`pat` when the replacement text contains no occurrence, shares no
non-trivial prefix/suffix overlap with `pat`, and either `pat` itself is
the replaced pattern or `pat` did not occur in the input. -/
theorem replaceFuel_infix_free (pat pat' new' : List Char)
    (hpne : pat ≠ []) (hp'ne : pat' ≠ [])
    (h1 : ¬ pat <:+: new')
    (h2 : ∀ u, u <+: pat → u ≠ [] → u.length < pat.length → ¬ u <:+ new')
    (h3 : ∀ v, v <:+ pat → v ≠ [] → v.length < pat.length → ¬ v <+: new' ∧ ¬ new' <+: v) :
    ∀ fuel s, s.length ≤ fuel → (pat' = pat ∨ ¬ pat <:+: s) →
      ¬ pat <:+: replaceFuel pat' new' fuel s := by
  intro fuel
  induction fuel with
  | zero =>
    intro s hlen hs h
    have hsnil : s = [] := List.length_eq_zero.mp (Nat.le_zero.mp hlen)
    subst hsnil
    simp only [replaceFuel] at h
    have hl0 := h.length_le
    simp at hl0
    exact hpne hl0
  | succ f ih =>
    intro s hlen hs h
    simp only [replaceFuel] at h
    split at h
    · next hcond =>
      obtain ⟨-, hps⟩ := hcond
      rcases infixAppendSplit h with hcase | hcase | ⟨k, hk0, hklen, hks, hkp⟩
      · exact h1 hcase
      · have hlrec : (s.drop pat'.length).length ≤ f := by
          have hp1 : 1 ≤ pat'.length := by
            cases pat' with
            | nil => exact absurd rfl hp'ne
            | cons a t => simp
          have := hps.length_le
          simp
          omega
        have hs2 : pat' = pat ∨ ¬ pat <:+: s.drop pat'.length := by
          rcases hs with hs | hs
          · exact Or.inl hs
          · refine Or.inr ?_
            intro hin
            exact hs (hin.trans (List.drop_suffix _ _).isInfix)
        exact ih (s.drop pat'.length) hlrec hs2 hcase
      · have htkne : pat.take k ≠ [] := by
          intro hnil
          have hlen0 : (pat.take k).length = 0 := by rw [hnil]; rfl
          rw [List.length_take] at hlen0
          omega
        have htklen : (pat.take k).length < pat.length := by
          rw [List.length_take]
          omega
        exact h2 (pat.take k) ( List.take_prefix _ _) htkne htklen hks
    · next hcond =>
      have hnp : ¬ pat' <+: s := fun hp => hcond ⟨hp'ne, hp⟩
      cases s with
      | nil =>
        have hl0 := h.length_le
        simp at hl0
        exact hpne hl0
      | cons c t =>
        have hnotpre : ¬ pat <+: (c :: t) := by
          intro hpfx
          rcases hs with hs | hs
          · exact hnp (hs ▸ hpfx)
          · exact hs hpfx.isInfix
        rcases List.infix_cons_iff.mp h with hpre | hinf
        · cases hpat : pat with
          | nil => exact hpne hpat
          | cons p0 pt =>
            rw [hpat] at hpre
            rcases List.cons_prefix_cons.mp hpre with ⟨hc, htail⟩
            have hplen : pat.length = pt.length + 1 := by
              rw [hpat]
              rfl
            by_cases hlen2 : 1 < pat.length
            · have hdrop1 : pat.drop 1 = pt := by rw [hpat]; rfl
              have htail2 : pat.drop 1 <+: replaceFuel pat' new' f t := by
                rw [hdrop1]
                exact htail
              have horig := replaceFuel_drop_to_orig pat pat' new' h3 f t
                (by simpa using Nat.le_of_succ_le_succ hlen) 1 (by omega) hlen2 htail2
              apply hnotpre
              have hsplit : pat = p0 :: pat.drop 1 := by rw [hdrop1, hpat]
              rw [hsplit, ← hc]
              exact List.cons_prefix_cons.mpr ⟨rfl, horig⟩
            · have hptnil : pt = [] := by
                apply List.length_eq_zero.mp
                omega
              apply hnotpre
              rw [hpat, hptnil, ← hc]
              exact List.cons_prefix_cons.mpr ⟨rfl, List.nil_prefix⟩
        · have hs3 : pat' = pat ∨ ¬ pat <:+: t := by
            rcases hs with hs | hs
            · exact Or.inl hs
            · exact Or.inr (fun hin => hs (List.infix_cons hin))
          exact ih t (by simpa using Nat.le_of_succ_le_succ hlen) hs3 hinf

/-- Helper: `pyReplace` version of the master lemma. -/
theorem pyReplace_infix_free (pat pat' new' s : List Char)
    (hpne : pat ≠ []) (hp'ne : pat' ≠ [])
    (h1 : ¬ pat <:+: new')
    (h2 : ∀ u, u <+: pat → u ≠ [] → u.length < pat.length → ¬ u <:+ new')
    (h3 : ∀ v, v <:+ pat → v ≠ [] → v.length < pat.length → ¬ v <+: new' ∧ ¬ new' <+: v)
    (hs : pat' = pat ∨ ¬ pat <:+: s) :
    ¬ pat <:+: pyReplace s pat' new' :=
  replaceFuel_infix_free pat pat' new' hpne hp'ne h1 h2 h3 s.length s (Nat.le_refl _) hs

/-- Helper: the captured group of the link-tail match is the 32-character
lowercase-hex id. -/
theorem matchTail_spec : ∀ t idl rest, matchTail t = some (idl, rest) →
    idl.length = 32 ∧ ∀ c ∈ idl, isLowerHex c = true := by
  intro t idl rest h
  unfold matchTail at h
  split at h
  · next t' =>
    by_cases hcond : ((t'.take 32).length == 32 && (t'.take 32).all isLowerHex) = true
    · rw [if_pos hcond] at h
      rw [Bool.and_eq_true] at hcond
      obtain ⟨hlen, hall⟩ := hcond
      split at h
      · injection h with h
        injection h with h1 h2
        subst h1
        constructor
        · simpa using hlen
        · exact fun c hc => List.all_eq_true.mp hall c hc
      · exact Option.noConfusion h
    · rw [if_neg hcond] at h
      exact Option.noConfusion h
  · exact Option.noConfusion h

/-- Helper: the captured group of the lazy inner match is the
32-character lowercase-hex id. -/
theorem matchInner_spec : ∀ l idl rest, matchInner l = some (idl, rest) →
    idl.length = 32 ∧ ∀ c ∈ idl, isLowerHex c = true := by
  intro l
  induction l with
  | nil => intro idl rest h; exact Option.noConfusion h
  | cons c t ih =>
    intro idl rest h
    simp only [matchInner] at h
    cases hm : (if c = ']' then matchTail t else none) with
    | some r =>
      rw [hm] at h
      injection h with h
      by_cases hc : c = ']'
      · rw [if_pos hc] at hm
        rw [h] at hm
        exact matchTail_spec t idl rest hm
      · rw [if_neg hc] at hm
        exact Option.noConfusion hm
    | none =>
      rw [hm] at h
      by_cases hn : c = '\n'
      · rw [if_pos hn] at h
        exact Option.noConfusion h
      · rw [if_neg hn] at h
        exact ih idl rest h

/-- Helper: the captured group of a full image match is the 32-character
lowercase-hex id. -/
theorem matchImageAt_spec : ∀ l idl rest, matchImageAt l = some (idl, rest) →
    idl.length = 32 ∧ ∀ c ∈ idl, isLowerHex c = true := by
  intro l idl rest h
  unfold matchImageAt at h
  split at h
  · exact matchInner_spec _ idl rest h
  · exact Option.noConfusion h

/-- Helper: every id captured by the regular-expression scan is 32
lowercase-hex characters. -/
theorem findall_mem_spec : ∀ fuel s idl, idl ∈ findallFuel fuel s →
    idl.length = 32 ∧ ∀ c ∈ idl, isLowerHex c = true := by
  intro fuel
  induction fuel with
  | zero => intro s idl h; simp [findallFuel] at h
  | succ f ih =>
    intro s idl h
    cases s with
    | nil => simp [findallFuel] at h
    | cons c t =>
      simp only [findallFuel] at h
      cases hm : matchImageAt (c :: t) with
      | some pr =>
        obtain ⟨i, rest⟩ := pr
        rw [hm] at h
        rcases List.mem_cons.mp h with heq | hmem
        · rw [heq]
          exact matchImageAt_spec (c :: t) i rest hm
        · exact ih rest idl hmem
      | none =>
        rw [hm] at h
        exact ih t idl h

/-- Helper: bundled side conditions of the master lemma for the internal
link pattern of one hex id against the replacement link of another. -/
theorem patOf_conditions (rid0 : List Char)
    (hhex0 : ∀ c ∈ rid0, isLowerHex c = true)
    (rid : List Char) (meta : ResourceMeta) (h32r : rid.length = 32)
    (hhexr : ∀ c ∈ rid, isLowerHex c = true)
    (hle : (patOf rid0).length ≤ 36) :
    ¬ patOf rid0 <:+: newLinkOf rid meta ∧
    (∀ u, u <+: patOf rid0 → u ≠ [] → u.length < (patOf rid0).length →
      ¬ u <:+ newLinkOf rid meta) ∧
    (∀ v, v <:+ patOf rid0 → v ≠ [] → v.length < (patOf rid0).length →
      ¬ v <+: newLinkOf rid meta ∧ ¬ newLinkOf rid meta <+: v) := by
  refine ⟨?_, ?_, ?_⟩
  · intro h
    apply colonSlash_not_in_newLink rid meta hhexr
    have hsub : [':', '/'] <:+: patOf rid0 :=
      ⟨['('], rid0 ++ [')'], by simp [patOf]⟩
    exact hsub.trans h
  · exact patOf_take_not_suffix rid0 hhex0 _ (newLinkOf_getLast? rid meta)
  · exact patOf_drop_conditions rid0 hhex0 _ (newLinkOf_head? rid meta)
      (le_trans hle (newLinkOf_length rid meta h32r))

/-- Helper: when both fetches succeed the step rewrites the body by the
textual substitution of the whole internal link, whether or not the file
was already present. -/
theorem step_body_eq (api : ApiModel) (st : LoopState) (rid : List Char) (meta : ResourceMeta)
    (hm : api.get_resource rid = some meta) (hf : (api.get_resource_file rid).isSome = true) :
    (processResourceStep api st rid).body =
      pyReplace st.body (patOf rid) (newLinkOf rid meta) := by
  by_cases hl : (alookup (resFilenameOf rid meta) st.fs).isSome = true
  · simp [processResourceStep, hm, hl]
  · cases hgf : api.get_resource_file rid with
    | none => rw [hgf] at hf; simp at hf
    | some content => simp [processResourceStep, hm, hgf, hl]

/-- Helper: once the body is free of a given internal link pattern, the
remaining loop steps (over hex-32 ids) never re-introduce it. -/
theorem loop_keeps_infix_free (api : ApiModel) (rid0 : List Char)
    (h32 : rid0.length = 32) (hhex0 : ∀ c ∈ rid0, isLowerHex c = true) :
    ∀ links st, (∀ rid ∈ links, rid.length = 32 ∧ ∀ c ∈ rid, isLowerHex c = true) →
      ¬ patOf rid0 <:+: st.body →
      ¬ patOf rid0 <:+: (rewriteLoop api links st).body := by
  intro links
  induction links with
  | nil => intro st _ h; exact h
  | cons rid rest ih =>
    intro st hlinks h
    obtain ⟨h32r, hhexr⟩ := hlinks rid (List.mem_cons_self _ _)
    have hle : (patOf rid0).length ≤ 36 := by rw [patOf_length, h32]
    show ¬ patOf rid0 <:+: (rewriteLoop api rest (processResourceStep api st rid)).body
    apply ih (processResourceStep api st rid)
      (fun r hr => hlinks r (List.mem_cons_of_mem _ hr))
    cases hg : api.get_resource rid with
    | none => simpa [processResourceStep, hg] using h
    | some meta =>
      obtain ⟨hni, hu, hv⟩ := patOf_conditions rid0 hhex0 rid meta h32r hhexr hle
      have hrep : ¬ patOf rid0 <:+: pyReplace st.body (patOf rid) (newLinkOf rid meta) :=
        pyReplace_infix_free (patOf rid0) (patOf rid) (newLinkOf rid meta) st.body
          (patOf_ne_nil _) (patOf_ne_nil _) hni hu hv (Or.inr h)
      by_cases hl : (alookup (resFilenameOf rid meta) st.fs).isSome = true
      · simpa [processResourceStep, hg, hl] using hrep
      · cases hgf : api.get_resource_file rid with
        | none => simpa [processResourceStep, hg, hgf, hl] using h
        | some content => simpa [processResourceStep, hg, hgf, hl] using hrep

/-- Helper: if a hex-32 id occurs among the processed links and both of
its fetches succeed, the loop output body holds no occurrence of its
internal link pattern. -/
theorem loop_removes_ref (api : ApiModel) (rid0 : List Char) (meta0 : ResourceMeta)
    (hm : api.get_resource rid0 = some meta0)
    (hfile : (api.get_resource_file rid0).isSome = true) :
    ∀ links st, rid0 ∈ links →
      (∀ rid ∈ links, rid.length = 32 ∧ ∀ c ∈ rid, isLowerHex c = true) →
      ¬ patOf rid0 <:+: (rewriteLoop api links st).body := by
  intro links
  induction links with
  | nil => intro st hmem; simp at hmem
  | cons rid rest ih =>
    intro st hmem hlinks
    obtain ⟨h32, hhex0⟩ := hlinks rid0 hmem
    show ¬ patOf rid0 <:+: (rewriteLoop api rest (processResourceStep api st rid)).body
    by_cases heq : rid = rid0
    · subst heq
      have hle : (patOf rid).length ≤ 36 := by rw [patOf_length, h32]
      obtain ⟨hni, hu, hv⟩ := patOf_conditions rid hhex0 rid meta0 h32 hhex0 hle
      have hrep : ¬ patOf rid <:+: (processResourceStep api st rid).body := by
        rw [step_body_eq api st rid meta0 hm hfile]
        exact pyReplace_infix_free (patOf rid) (patOf rid) (newLinkOf rid meta0) st.body
          (patOf_ne_nil _) (patOf_ne_nil _) hni hu hv (Or.inl rfl)
      exact loop_keeps_infix_free api rid h32 hhex0 rest (processResourceStep api st rid)
        (fun r hr => hlinks r (List.mem_cons_of_mem _ hr)) hrep
    · have hmem2 : rid0 ∈ rest := by
        rcases List.mem_cons.mp hmem with h | h
        · exact absurd h.symm heq
        · exact h
      exact ih (processResourceStep api st rid) hmem2
        (fun r hr => hlinks r (List.mem_cons_of_mem _ hr))

/-- C3: for every note body and every resource id captured by the
internal-reference scan (`:/` plus exactly 32 lowercase hex characters
inside markdown image syntax), if the resource is processed successfully
(metadata fetch succeeds and the content fetch would succeed), then the
step rewrites the body by replacing every textual occurrence of
`(:/<id>)` — repeats included, as `str.replace` substitutes all
occurrences — with `(/resources/<newFilename>)`, and the loop's output
body retains no occurrence of the internal reference `(:/<id>)`. -/
theorem resource_refs_all_rewritten (api : ApiModel) (body : List Char) (rid : List Char)
    (fs0 : List (List Char × String)) (dls0 : List (List Char)) (meta : ResourceMeta)
    (hmem : rid ∈ findall body)
    (hmeta : api.get_resource rid = some meta)
    (hfile : (api.get_resource_file rid).isSome = true) :
    (∀ st : LoopState, (processResourceStep api st rid).body =
        pyReplace st.body (patOf rid) (newLinkOf rid meta)) ∧
    ¬ patOf rid <:+:
      (rewriteLoop api (findall body) { body := body, fs := fs0, downloads := dls0 }).body := by
  constructor
  · intro st
    exact step_body_eq api st rid meta hmeta hfile
  · exact loop_removes_ref api rid meta hmeta hfile (findall body) _ hmem
      (fun r hr => findall_mem_spec body.length body r hr)

/-- Witness for C3: the concrete body of `noteA` holds one reference to
`ridA`; after the loop no occurrence of the internal reference remains,
and the step equation is evaluated at the initial loop state. -/
theorem resource_refs_all_rewritten_witness :
    (processResourceStep apiA { body := bodyA.data, fs := [], downloads := [] } ridA).body =
      pyReplace bodyA.data (patOf ridA) (newLinkOf ridA metaA) ∧
    ¬ patOf ridA <:+:
      (rewriteLoop apiA (findall bodyA.data)
        { body := bodyA.data, fs := [], downloads := [] }).body :=
  ⟨(resource_refs_all_rewritten apiA bodyA.data ridA [] [] metaA (by decide) (by decide)
      (by decide)).1 { body := bodyA.data, fs := [], downloads := [] },
   (resource_refs_all_rewritten apiA bodyA.data ridA [] [] metaA (by decide) (by decide)
      (by decide)).2⟩

end JoplinHexo
